import Mathlib

/-!
Verification of the objmod path-addressed object library.

The definitions below are a shallow embedding of the TypeScript module in
src/unnamed/part_002 (first document, the implementation the claims cite):
`get`, `set`, `has`, `del`, `scan`, `merge`, `map` and the `cache` wrapper.
JavaScript runtime values are modelled by the inductive `Js`; plain objects
are ordered association lists of string keys, which mirrors JavaScript's
insertion-ordered own properties as seen by `Object.entries`, the `in`
operator, property reads and property writes.
-/

namespace Objmod

/-- JavaScript runtime values as the library manipulates them: primitives
(string, number, boolean, `null`, `undefined`) and plain objects with
insertion-ordered string-keyed fields. `typeof v === "object" && v !== null`
holds exactly for the `obj` constructor. -/
inductive Js where
  | str : String → Js
  | num : Int → Js
  | bool : Bool → Js
  | null : Js
  | undef : Js
  | obj : List (String × Js) → Js

/-- The fields of a JavaScript object, in property insertion order. -/
abbrev Fields := List (String × Js)

/-- Property lookup on an object: `some v` when the key is an own property
holding `v` (the JavaScript `key in value` test succeeding, followed by the
read `value[key]`), `none` when the key is absent. A property whose stored
value is `undefined` is still present for `in`. -/
def findField : Fields → String → Option Js
  | [], _ => none
  | (k, v) :: rest, key => if k = key then some v else findField rest key

/-- The JavaScript `key in value` test on a plain object. -/
def jsIn (fields : Fields) (key : String) : Bool :=
  (findField fields key).isSome

/-- The JavaScript property read `value[key]`: `undefined` when absent. -/
def readField (fields : Fields) (key : String) : Js :=
  (findField fields key).getD Js.undef

/-- The JavaScript property write `value[key] = v`: an existing key keeps its
position and gets the new value; a fresh key is appended at the end, which is
exactly JavaScript's insertion-order rule. -/
def writeField : Fields → String → Js → Fields
  | [], key, v => [(key, v)]
  | (k, w) :: rest, key, v =>
      if k = key then (key, v) :: rest else (k, w) :: writeField rest key v

/-- JavaScript `path.split(".")` (String.prototype.split with a one-character
separator): `""` yields `[""]`, and consecutive separators yield empty
segments, e.g. `"a..b"` yields `["a", "", "b"]`. Defined by structural
recursion over the characters so that it evaluates inside the kernel. -/
def splitDotAux : List Char → List Char → List String
  | [], acc => [String.mk acc.reverse]
  | c :: rest, acc =>
      if c = '.' then String.mk acc.reverse :: splitDotAux rest []
      else splitDotAux rest (c :: acc)

/-- See `splitDotAux`. -/
def splitDot (s : String) : List String := splitDotAux s.toList []

/-- Path concatenation used by `scan`: `` prefix ? `${prefix}.${key}` : key ``. -/
def joinPath (pre key : String) : String :=
  if pre = "" then key else pre ++ "." ++ key

/-- The traversal loop shared by `get` (src/unnamed/part_002 lines 49-56):
walk the split address; whenever the current value is not a non-null object
or the segment key is absent, return the default; otherwise continue with the
read property. -/
def getGo (defv : Js) : Js → List String → Js
  | value, [] => value
  | value, key :: rest =>
      match value with
      | Js.obj fields =>
          match findField fields key with
          | some v => getGo defv v rest
          | none => defv
      | _ => defv

/-- `get(obj, path, def)` from src/unnamed/part_002 lines 44-58. The optional
`def` parameter defaults to `undefined`. -/
def get (root : Fields) (path : String) (defv : Js := Js.undef) : Js :=
  getGo defv (Js.obj root) (splitDot path)

/-- The traversal loop of `has` (src/unnamed/part_002 lines 100-108): the same
walk as `get`, reporting whether every segment resolved. -/
def hasGo : Js → List String → Bool
  | _, [] => true
  | value, key :: rest =>
      match value with
      | Js.obj fields =>
          match findField fields key with
          | some v => hasGo v rest
          | none => false
      | _ => false

/-- `has(obj, path)` from src/unnamed/part_002 lines 96-109. -/
def has (root : Fields) (path : String) : Bool :=
  hasGo (Js.obj root) (splitDot path)

/-- The loop of `set` (src/unnamed/part_002 lines 77-84). The source iterates
over every segment of the filtered address, replacing `value[key]` by a fresh
`{}` whenever it is not a non-null object and descending into it, and after
the loop assigns `value[lastKey] = val` on the object the walk ended on. The
deep mutation is rendered by rebuilding the spine: writing the updated child
back under its key, which keeps its position. -/
def setGo : Fields → List String → String → Js → Fields
  | fields, [], lastKey, v => writeField fields lastKey v
  | fields, key :: rest, lastKey, v =>
      let child : Fields :=
        match findField fields key with
        | some (Js.obj f) => f
        | _ => []
      writeField fields key (Js.obj (setGo child rest lastKey v))

/-- `set(obj, path, val)` from src/unnamed/part_002 lines 69-85. Returns the
pair of the function's return value and the mutated root. An empty path
returns `false`; every other call falls off the end of the function body, so
the returned value is `undefined`, modelled as `none`. When the filtered
address is empty (a path made only of dots), `address[address.length - 1]`
is `undefined`, which a JavaScript property write coerces to the key
`"undefined"` on the root. -/
def set (root : Fields) (path : String) (v : Js) : Option Bool × Fields :=
  if path = "" then (some false, root)
  else
    let address := (splitDot path).filter (fun s => decide (s ≠ ""))
    match address with
    | [] => (none, writeField root "undefined" v)
    | _ :: _ => (none, setGo root address (address.getLastD "") v)

/-- The loop of `del` (src/unnamed/part_002 lines 127-140). The source walks
every segment of the address, returning `undefined` without mutating as soon
as a key is absent or its value is not a non-null object; after the loop it
reads `value[lastKey]` on the object the walk ended on, assigns `undefined`
to that key, and returns the read value. `none` is the early `return
undefined` of the source. -/
def delGo : Fields → List String → String → Option (Js × Fields)
  | fields, [], lastKey =>
      some (readField fields lastKey, writeField fields lastKey Js.undef)
  | fields, key :: rest, lastKey =>
      match findField fields key with
      | some (Js.obj f) =>
          match delGo f rest lastKey with
          | some (target, f2) => some (target, writeField fields key (Js.obj f2))
          | none => none
      | _ => none

/-- `del(obj, path)` from src/unnamed/part_002 lines 120-141: the returned
value paired with the (possibly) mutated root. -/
def del (root : Fields) (path : String) : Js × Fields :=
  let address := splitDot path
  match delGo root address (address.getLastD "") with
  | some res => res
  | none => (Js.undef, root)

mutual
/-- The `scan` recursion (src/unnamed/part_002 lines 155-168) over the entries
of one object: for each `[key, value]` of `Object.entries(obj)` in order,
`map.set(path, value)` and, when the value is a truthy object, recurse into it
with the extended prefix, threading the same map through. -/
def scanGo : Fields → String → List (String × Js) → List (String × Js)
  | [], _, m => m
  | (key, value) :: rest, pre, m => scanGo rest pre (scanEntry key value pre m)

/-- One entry step of `scan`: record the entry in the map, then recurse when
the value is a non-null object (`value && typeof value === "object"`). -/
def scanEntry : String → Js → String → List (String × Js) → List (String × Js)
  | key, Js.obj f, pre, m =>
      scanGo f (joinPath pre key) (writeField m (joinPath pre key) (Js.obj f))
  | key, value, pre, m => writeField m (joinPath pre key) value
end

/-- `scan(obj)` from src/unnamed/part_002 lines 155-168, started with an empty
prefix and a fresh map. The resulting `Map` is modelled as its insertion-order
association list. -/
def scan (root : Fields) : List (String × Js) := scanGo root "" []

/-- `merge(target, source)` from src/unnamed/part_002 lines 181-189: scan the
source and `set` each produced `(path, value)` pair into the target, in map
iteration order, returning the target. -/
def merge (target source : Fields) : Fields :=
  (scan source).foldl (fun t pv => (set t pv.1 pv.2).2) target

/-- `map(obj, func)` from src/unnamed/part_002 lines 224-234: snapshot the
scan of the object, then `set(obj, path, func(path, value))` for each entry
of the snapshot in order. -/
def map (root : Fields) (fn : String → Js → Js) : Fields :=
  (scan root).foldl (fun r pv => (set r pv.1 (fn pv.1 pv.2)).2) root

/-- The state owned by a `cache(obj)` wrapper (src/unnamed/part_002 lines
269-329): the reference to the wrapped object and the internal path-to-value
map, seeded with `scan(obj)` at construction. -/
structure Cache where
  root : Fields
  index : List (String × Js)

/-- `cache(obj)`: build the index eagerly from `scan(obj)`. -/
def cache (root : Fields) : Cache :=
  { root := root, index := scan root }

/-- The cache's `_get(path, def)` (src/unnamed/part_002 lines 283-290): serve
from the index when `map.has(path)`, otherwise fall back to `get` on the
wrapped object and insert the result into the index. Returns the value and
the possibly updated cache. -/
def cacheGet (c : Cache) (path : String) (defv : Js := Js.undef) : Js × Cache :=
  match findField c.index path with
  | some v => (v, c)
  | none =>
      let value := get c.root path defv
      (value, { c with index := writeField c.index path value })

/-- The cache's `_refresh()` (src/unnamed/part_002 lines 317-320): clear the
index and re-insert every entry of a fresh `scan` of the wrapped object. -/
def cacheRefresh (c : Cache) : Cache :=
  { c with index := (scan c.root).foldl (fun m pv => writeField m pv.1 pv.2) [] }

/-- External mutation of the wrapped object, bypassing the cache: the backing
root changes while the cache's index is left untouched. -/
def mutateRoot (c : Cache) (newRoot : Fields) : Cache :=
  { c with root := newRoot }

/-- The `get` walk with the root threaded through every iteration, making it
explicit that the loop of src/unnamed/part_002 lines 51-56 only reads
`value[key]` and never writes a property: each step returns the root it was
given. -/
def getGoTh : Fields → Js → List String → Js → Js × Fields
  | root, value, [], _ => (value, root)
  | root, value, key :: rest, defv =>
      match value with
      | Js.obj fields =>
          match findField fields key with
          | some v => getGoTh root v rest defv
          | none => (defv, root)
      | _ => (defv, root)

/-- `get` returning the root alongside its result; see `getGoTh`. -/
def getTh (root : Fields) (path : String) (defv : Js := Js.undef) : Js × Fields :=
  getGoTh root (Js.obj root) (splitDot path) defv

/-- The `has` walk with the root threaded, as in `getGoTh`. -/
def hasGoTh : Fields → Js → List String → Bool × Fields
  | root, _, [] => (true, root)
  | root, value, key :: rest =>
      match value with
      | Js.obj fields =>
          match findField fields key with
          | some v => hasGoTh root v rest
          | none => (false, root)
      | _ => (false, root)

/-- `has` returning the root alongside its result; see `hasGoTh`. -/
def hasTh (root : Fields) (path : String) : Bool × Fields :=
  hasGoTh root (Js.obj root) (splitDot path)

mutual
/-- The enumeration order the specification prescribes for `scan` (spec
section 4.3), transcribed from its words: depth-first pre-order with pure
list append; for each child in the container's own order, emit the child's
entry first and then, when the child is itself a container, all of the
child's descendant entries, before moving to the next sibling. This is the
refinement target `scan` is compared against. -/
def specScanGo : Fields → String → List (String × Js)
  | [], _ => []
  | (key, value) :: rest, pre => specScanEntry key value pre ++ specScanGo rest pre

/-- One child of the specified enumeration: the child's own entry followed by
its descendants' entries. -/
def specScanEntry : String → Js → String → List (String × Js)
  | key, Js.obj f, pre =>
      (joinPath pre key, Js.obj f) :: specScanGo f (joinPath pre key)
  | key, value, pre => [(joinPath pre key, value)]
end

/-- The specified enumeration of a whole root; see `specScanGo`. -/
def specScan (root : Fields) : List (String × Js) := specScanGo root ""

end Objmod


namespace Objmod

/-! ## Helper lemmas -/

theorem getGoTh_spec (keys : List String) : ∀ (root : Fields) (value defv : Js),
    getGoTh root value keys defv = (getGo defv value keys, root) := by
  induction keys with
  | nil => intro root value defv; rfl
  | cons key rest ih =>
      intro root value defv
      cases value with
      | obj fields =>
          cases h : findField fields key with
          | some v =>
              simp only [getGoTh, getGo, h]
              exact ih root v defv
          | none => simp only [getGoTh, getGo, h]
      | str s => rfl
      | num n => rfl
      | bool b => rfl
      | null => rfl
      | undef => rfl

theorem hasGoTh_spec (keys : List String) : ∀ (root : Fields) (value : Js),
    hasGoTh root value keys = (hasGo value keys, root) := by
  induction keys with
  | nil => intro root value; rfl
  | cons key rest ih =>
      intro root value
      cases value with
      | obj fields =>
          cases h : findField fields key with
          | some v =>
              simp only [hasGoTh, hasGo, h]
              exact ih root v
          | none => simp only [hasGoTh, hasGo, h]
      | str s => rfl
      | num n => rfl
      | bool b => rfl
      | null => rfl
      | undef => rfl

theorem getGo_default (keys : List String) : ∀ (value d d2 : Js),
    (hasGo value keys = false → getGo d value keys = d)
    ∧ (hasGo value keys = true → getGo d value keys = getGo d2 value keys) := by
  induction keys with
  | nil =>
      intro value d d2
      exact ⟨(fun h => nomatch h), (fun _ => rfl)⟩
  | cons key rest ih =>
      intro value d d2
      cases value with
      | obj fields =>
          cases h : findField fields key with
          | some v =>
              constructor
              · intro hf
                simp only [hasGo, h] at hf
                simp only [getGo, h]
                exact (ih v d d2).1 hf
              · intro ht
                simp only [hasGo, h] at ht
                simp only [getGo, h]
                exact (ih v d d2).2 ht
          | none =>
              constructor
              · intro _
                simp only [getGo, h]
              · intro ht
                simp only [hasGo, h] at ht
                exact nomatch ht
      | str s => exact ⟨(fun _ => rfl), (fun ht => nomatch ht)⟩
      | num n => exact ⟨(fun _ => rfl), (fun ht => nomatch ht)⟩
      | bool b => exact ⟨(fun _ => rfl), (fun ht => nomatch ht)⟩
      | null => exact ⟨(fun _ => rfl), (fun ht => nomatch ht)⟩
      | undef => exact ⟨(fun _ => rfl), (fun ht => nomatch ht)⟩

theorem writeField_of_not_mem (m : List (String × Js)) (k : String) (v : Js)
    (h : k ∉ m.map Prod.fst) : writeField m k v = m ++ [(k, v)] := by
  induction m with
  | nil => rfl
  | cons kv rest ih =>
      obtain ⟨k1, v1⟩ := kv
      simp only [List.map_cons, List.mem_cons] at h
      push_neg at h
      simp only [writeField, List.cons_append]
      rw [if_neg (fun he => h.1 he.symm), ih h.2]

theorem mem_keys_writeField (m : List (String × Js)) (k a : String) (v : Js) :
    a ∈ (writeField m k v).map Prod.fst ↔ a ∈ m.map Prod.fst ∨ a = k := by
  induction m with
  | nil => simp [writeField]
  | cons kv rest ih =>
      obtain ⟨k1, v1⟩ := kv
      by_cases hk : k1 = k
      · subst hk
        simp [writeField]
        tauto
      · simp [writeField, hk, ih]
        tauto

theorem nodup_keys_writeField (m : List (String × Js)) (k : String) (v : Js)
    (h : (m.map Prod.fst).Nodup) : ((writeField m k v).map Prod.fst).Nodup := by
  induction m with
  | nil => simp [writeField]
  | cons kv rest ih =>
      obtain ⟨k1, v1⟩ := kv
      simp only [List.map_cons, List.nodup_cons] at h
      by_cases hk : k1 = k
      · subst hk
        simp only [writeField, if_pos, List.map_cons, List.nodup_cons]
        exact h
      · simp only [writeField, if_neg hk, List.map_cons, List.nodup_cons]
        refine ⟨?_, ih h.2⟩
        intro hmem
        rw [mem_keys_writeField] at hmem
        rcases hmem with h1 | h2
        · exact h.1 h1
        · exact hk h2

theorem scanGo_append :
    ∀ (fields : Fields) (pre : String) (m : List (String × Js)),
      ((m.map Prod.fst) ++ ((specScanGo fields pre).map Prod.fst)).Nodup →
      scanGo fields pre m = m ++ specScanGo fields pre := by
  refine scanGo.induct
    (fun fields pre m =>
      ((m.map Prod.fst) ++ ((specScanGo fields pre).map Prod.fst)).Nodup →
      scanGo fields pre m = m ++ specScanGo fields pre)
    (fun key value pre m =>
      ((m.map Prod.fst) ++ ((specScanEntry key value pre).map Prod.fst)).Nodup →
      scanEntry key value pre m = m ++ specScanEntry key value pre)
    ?_ ?_ ?_ ?_
  · intro key f pre m ih hnd
    simp only [specScanEntry, List.map_cons] at hnd ⊢
    have hfresh : joinPath pre key ∉ m.map Prod.fst := by
      have hd := (List.nodup_append.mp hnd).2.2
      intro hmem
      exact hd hmem (List.mem_cons_self _ _)
    have hw : writeField m (joinPath pre key) (Js.obj f)
        = m ++ [(joinPath pre key, Js.obj f)] :=
      writeField_of_not_mem m _ _ hfresh
    have hih : (((m ++ [(joinPath pre key, Js.obj f)]).map Prod.fst)
        ++ ((specScanGo f (joinPath pre key)).map Prod.fst)).Nodup := by
      rw [List.append_cons] at hnd
      simpa [List.append_assoc] using hnd
    simp only [scanEntry]
    rw [hw] at ih ⊢
    rw [ih hih]
    simp [List.append_assoc]
  · intro key value pre m hno hnd
    cases value with
    | obj f => exact absurd rfl (hno f)
    | str s =>
        simp only [scanEntry, specScanEntry] at hnd ⊢
        refine writeField_of_not_mem m _ _ ?_
        have hd := (List.nodup_append.mp hnd).2.2
        intro hmem
        exact hd hmem (by simp)
    | num n =>
        simp only [scanEntry, specScanEntry] at hnd ⊢
        refine writeField_of_not_mem m _ _ ?_
        have hd := (List.nodup_append.mp hnd).2.2
        intro hmem
        exact hd hmem (by simp)
    | bool b =>
        simp only [scanEntry, specScanEntry] at hnd ⊢
        refine writeField_of_not_mem m _ _ ?_
        have hd := (List.nodup_append.mp hnd).2.2
        intro hmem
        exact hd hmem (by simp)
    | null =>
        simp only [scanEntry, specScanEntry] at hnd ⊢
        refine writeField_of_not_mem m _ _ ?_
        have hd := (List.nodup_append.mp hnd).2.2
        intro hmem
        exact hd hmem (by simp)
    | undef =>
        simp only [scanEntry, specScanEntry] at hnd ⊢
        refine writeField_of_not_mem m _ _ ?_
        have hd := (List.nodup_append.mp hnd).2.2
        intro hmem
        exact hd hmem (by simp)
  · intro x m hnd
    simp [scanGo, specScanGo]
  · intro key value rest pre m ih2 ih1 hnd
    simp only [specScanGo, List.map_append] at hnd ⊢
    have hnd2 : ((m.map Prod.fst) ++ ((specScanEntry key value pre).map Prod.fst)).Nodup := by
      have : (((m.map Prod.fst) ++ ((specScanEntry key value pre).map Prod.fst))
          ++ ((specScanGo rest pre).map Prod.fst)).Nodup := by
        simpa [List.append_assoc] using hnd
      exact this.of_append_left
    have he := ih2 hnd2
    have hnd1 : (((scanEntry key value pre m).map Prod.fst)
        ++ ((specScanGo rest pre).map Prod.fst)).Nodup := by
      rw [he, List.map_append]
      simpa [List.append_assoc] using hnd
    simp only [scanGo]
    rw [ih1 hnd1, he]
    simp [List.append_assoc]

theorem scan_eq_specScan (root : Fields)
    (h : ((specScan root).map Prod.fst).Nodup) : scan root = specScan root := by
  have hs := scanGo_append root "" [] (by simpa [specScan] using h)
  simpa [scan, specScan] using hs

/-! ## Claim theorems -/

/-- C1: the claim states that for every container, valid path and value,
`set(r, p, v)` followed by `get(r, p)` returns `v` and `has(r, p)` is true.
The implementation violates the `get` part: its loop walks through every
segment of the path (creating an object at the final segment too) and then
assigns the value one level deeper, under the last segment repeated. At the
concrete input `r = {}`, `p = "a"`, `v = 1`, `set` produces
`{a: {a: 1}}`, so `get(r, "a")` returns the object `{a: 1}`, not `1`
(while `has(r, "a")` does return true). -/
theorem set_then_get_returns_nested_object :
    set [] "a" (Js.num 1) = (none, [("a", Js.obj [("a", Js.num 1)])])
    ∧ get (set [] "a" (Js.num 1)).2 "a" ≠ Js.num 1
    ∧ get (set [] "a" (Js.num 1)).2 "a" = Js.obj [("a", Js.num 1)]
    ∧ has (set [] "a" (Js.num 1)).2 "a" = true :=
  ⟨rfl, (fun h => nomatch h), rfl, rfl⟩

/-- C2: the claim states that after `del(r, p)` the path is absent
(`has(r, p) = false`) and a second `del` is a no-op returning the missing
sentinel. On `r = {age: 21}`, `p = "age"`, the implementation's walk requires
the value at the full path to be a non-null object, so it returns `undefined`
without mutating; `has(r, "age")` therefore remains true, contradicting the
claim (the repository's own example expects `obj.age` to become undefined). -/
theorem del_leaves_path_present :
    del [("age", Js.num 21)] "age" = (Js.undef, [("age", Js.num 21)])
    ∧ has (del [("age", Js.num 21)] "age").2 "age" = true
    ∧ del (del [("age", Js.num 21)] "age").2 "age" = (Js.undef, [("age", Js.num 21)]) :=
  ⟨rfl, rfl, rfl⟩

/-- C3: the claim states that `del` walks to the penultimate container and
removes the final key, returning the value previously stored at the path.
The implementation instead walks through every segment, demanding a non-null
object at the full path: on `r = {a: 1}`, `p = "a"` it returns `undefined`
and leaves `r` unchanged instead of removing `a` and returning `1`; and on
`r = {a: {b: 2}}`, `p = "a"` it assigns `undefined` to the key `a` inside
the object at path `a` (producing `{a: {b: 2, a: undefined}}`) rather than
removing the final key of the path. -/
theorem del_on_leaf_is_noop :
    del [("a", Js.num 1)] "a" = (Js.undef, [("a", Js.num 1)])
    ∧ del [("a", Js.obj [("b", Js.num 2)])] "a"
        = (Js.undef, [("a", Js.obj [("b", Js.num 2), ("a", Js.undef)])]) :=
  ⟨rfl, rfl⟩

/-- C4: the claim states that `set` returns false exactly on structurally
invalid paths and true otherwise. The implementation returns `false` for the
empty path but has no other return statement, so every other call returns
`undefined` (modelled `none`), never `true`; moreover on the segmentless
path `"."` it does not report failure at all but writes the value under the
key `"undefined"` on the root. -/
theorem set_never_returns_true :
    (set [] "a" (Js.num 1)).1 = none
    ∧ set [] "." (Js.num 1) = (none, [("undefined", Js.num 1)]) :=
  ⟨rfl, rfl⟩

/-- C6: the claim states that after `merge(a, b)` every leaf path of `b`
holds `b`'s value in the merged target. Because `merge` writes each scanned
pair with the defective `set`, the value lands one level deeper: for
`a = {}`, `b = {x: 1}` the merge produces `{x: {x: 1}}`, and `get` at the
leaf path `"x"` returns `{x: 1}` on the merged target but `1` on `b`. -/
theorem merge_source_leaf_not_copied :
    merge [] [("x", Js.num 1)] = [("x", Js.obj [("x", Js.num 1)])]
    ∧ get (merge [] [("x", Js.num 1)]) "x" ≠ get [("x", Js.num 1)] "x" :=
  ⟨rfl, (fun h => nomatch h)⟩

/-- C7: the claim states that applying `map` with the identity function
leaves `scan` unchanged. Because `map` writes each snapshot entry back with
the defective `set`, already the first application on `r = {x: 1}` rewrites
the tree to `{x: {x: 1}}`, whose scan has two entries instead of one, so the
scan after the passes differs from the scan before them. -/
theorem map_identity_changes_scan :
    map [("x", Js.num 1)] (fun _ v => v) = [("x", Js.obj [("x", Js.num 1)])]
    ∧ scan (map [("x", Js.num 1)] (fun _ v => v)) ≠ scan [("x", Js.num 1)] :=
  ⟨rfl, (fun h => nomatch h)⟩

/-- C9: `get` never throws (it is a total function) and, whenever any segment
of the walk fails to resolve — the current value is not a non-null container
or the key is absent, which is exactly when `has` reports false — it returns
the supplied default; when every segment resolves, its result does not depend
on the default at all. This holds for arbitrary roots and arbitrary path
strings, malformed ones included. -/
theorem get_returns_default_on_unresolved :
    ∀ (r : Fields) (p : String) (d d2 : Js),
      (has r p = false → get r p d = d)
      ∧ (has r p = true → get r p d = get r p d2) :=
  fun r p d d2 => getGo_default (splitDot p) (Js.obj r) d d2

/-- Witness for C9: on the malformed path `"a..b"` over `{a: {b: 1}}`,
resolution fails at the empty middle segment and `get` returns the default. -/
theorem get_returns_default_on_unresolved_witness :
    has [("a", Js.obj [("b", Js.num 1)])] "a..b" = false
    ∧ get [("a", Js.obj [("b", Js.num 1)])] "a..b" (Js.num 7) = Js.num 7 :=
  ⟨rfl,
   (get_returns_default_on_unresolved [("a", Js.obj [("b", Js.num 1)])] "a..b"
      (Js.num 7) (Js.num 7)).1 rfl⟩

/-- C10: the read operations `get` and `has` leave the root unchanged. Their
loops only ever read `value[key]`; rendered with the root threaded through
every iteration, both walks return exactly the root they were given, for
every root, every path string and every default. -/
theorem read_ops_preserve_root :
    ∀ (r : Fields) (p : String) (d : Js),
      getTh r p d = (get r p d, r) ∧ hasTh r p = (has r p, r) :=
  fun r p d =>
    ⟨getGoTh_spec (splitDot p) r (Js.obj r) d, hasGoTh_spec (splitDot p) r (Js.obj r)⟩

end Objmod

namespace Objmod

theorem foldl_writeField_append :
    ∀ (l acc : List (String × Js)),
      ((acc.map Prod.fst) ++ (l.map Prod.fst)).Nodup →
      l.foldl (fun m pv => writeField m pv.1 pv.2) acc = acc ++ l := by
  intro l
  induction l with
  | nil => intro acc h; simp
  | cons pv rest ih =>
      intro acc h
      obtain ⟨k, v⟩ := pv
      simp only [List.foldl_cons]
      have hk : k ∉ acc.map Prod.fst := by
        intro hmem
        exact (List.nodup_append.mp h).2.2 hmem (by simp)
      rw [writeField_of_not_mem acc k v hk]
      rw [ih (acc ++ [(k, v)]) (by simpa [List.append_assoc] using h)]
      simp

theorem nodup_keys_scanGo :
    ∀ (fields : Fields) (pre : String) (m : List (String × Js)),
      (m.map Prod.fst).Nodup → ((scanGo fields pre m).map Prod.fst).Nodup := by
  refine scanGo.induct
    (fun fields pre m =>
      (m.map Prod.fst).Nodup → ((scanGo fields pre m).map Prod.fst).Nodup)
    (fun key value pre m =>
      (m.map Prod.fst).Nodup → ((scanEntry key value pre m).map Prod.fst).Nodup)
    ?_ ?_ ?_ ?_
  · intro key f pre m ih h
    simp only [scanEntry]
    exact ih (nodup_keys_writeField m _ _ h)
  · intro key value pre m hno h
    cases value with
    | obj f => exact absurd rfl (hno f)
    | str s => exact nodup_keys_writeField m _ _ h
    | num n => exact nodup_keys_writeField m _ _ h
    | bool b => exact nodup_keys_writeField m _ _ h
    | null => exact nodup_keys_writeField m _ _ h
    | undef => exact nodup_keys_writeField m _ _ h
  · intro x m h
    simpa [scanGo] using h
  · intro key value rest pre m ih2 ih1 h
    simp only [scanGo]
    exact ih1 (ih2 h)

theorem nodup_keys_scan (root : Fields) : ((scan root).map Prod.fst).Nodup :=
  nodup_keys_scanGo root "" [] (by simp)

theorem cacheRefresh_index (c : Cache) : (cacheRefresh c).index = scan c.root := by
  have h := foldl_writeField_append (scan c.root) []
    (by simpa using nodup_keys_scan c.root)
  simpa [cacheRefresh] using h

theorem findField_of_jsIn {fields : Fields} {k : String} (h : jsIn fields k = true) :
    ∃ v, findField fields k = some v := by
  unfold jsIn at h
  exact Option.isSome_iff_exists.mp h

/-- C5: on the root `r = [name: "mahdi", city: [name: "mashhad", code: "051"]]`
the enumeration `scan(r)` yields, in order, exactly the entries
`name`, `city`, `city.name`, `city.code` with their values; and in general,
whenever the enumerated paths are pairwise distinct (which holds for
containers whose keys do not themselves contain the separator character, the
only containers the specification admits), `scan` coincides with the
specified depth-first pre-order enumeration `specScan`, which by construction
emits a parent's entry before its children's entries and siblings in the
container's own order. -/
theorem scan_preorder_spec :
    scan [("name", Js.str "mahdi"),
          ("city", Js.obj [("name", Js.str "mashhad"), ("code", Js.str "051")])]
      = [("name", Js.str "mahdi"),
         ("city", Js.obj [("name", Js.str "mashhad"), ("code", Js.str "051")]),
         ("city.name", Js.str "mashhad"),
         ("city.code", Js.str "051")]
    ∧ ∀ root : Fields,
        ((specScan root).map Prod.fst).Nodup → scan root = specScan root :=
  ⟨rfl, fun root h => scan_eq_specScan root h⟩

/-- Witness for C5: a concrete nested container with pairwise distinct paths
on which `scan` agrees with the specified pre-order enumeration. -/
theorem scan_preorder_spec_witness :
    ((specScan [("a", Js.obj [("b", Js.num 1)]), ("c", Js.num 2)]).map Prod.fst).Nodup
    ∧ scan [("a", Js.obj [("b", Js.num 1)]), ("c", Js.num 2)]
        = specScan [("a", Js.obj [("b", Js.num 1)]), ("c", Js.num 2)] :=
  ⟨by decide,
   scan_preorder_spec.2 [("a", Js.obj [("b", Js.num 1)]), ("c", Js.num 2)] (by decide)⟩

/-- C8: for a path indexed at construction time, mutating the wrapped root
behind the cache's back (modelled by `mutateRoot`, which changes the backing
root and leaves the index untouched) and then calling the cache's `get`
serves the stale value recorded in the index at construction — the value
`scan` indexed for that path in the pre-mutation root; after `refresh`, the
index is rebuilt from a fresh `scan` of the current root, so `get` serves the
value now stored at that path. -/
theorem cache_stale_then_refresh :
    ∀ (r r2 : Fields) (p : String) (d : Js),
      jsIn (scan r) p = true →
      (cacheGet (mutateRoot (cache r) r2) p d).1 = readField (scan r) p
      ∧ (jsIn (scan r2) p = true →
         (cacheGet (cacheRefresh (mutateRoot (cache r) r2)) p d).1
           = readField (scan r2) p) := by
  intro r r2 p d h1
  constructor
  · obtain ⟨v, hv⟩ := findField_of_jsIn h1
    simp only [cacheGet, mutateRoot, cache, hv, readField]
    simp [hv]
  · intro h2
    obtain ⟨v, hv⟩ := findField_of_jsIn h2
    have hidx : (cacheRefresh (mutateRoot (cache r) r2)).index = scan r2 := by
      rw [cacheRefresh_index]
      rfl
    simp only [cacheGet, hidx, hv, readField]
    simp [hv]

/-- Witness for C8: the repository's own cache example — the wrapped object
`[name: "mahdi"]` is mutated behind the cache to `[name: "amir"]`; the cached
`get("name")` still answers `"mahdi"` until `refresh`, after which it answers
`"amir"`. -/
theorem cache_stale_then_refresh_witness :
    jsIn (scan [("name", Js.str "mahdi")]) "name" = true
    ∧ jsIn (scan [("name", Js.str "amir")]) "name" = true
    ∧ (cacheGet (mutateRoot (cache [("name", Js.str "mahdi")])
          [("name", Js.str "amir")]) "name" Js.undef).1
        = readField (scan [("name", Js.str "mahdi")]) "name"
    ∧ (cacheGet (cacheRefresh (mutateRoot (cache [("name", Js.str "mahdi")])
          [("name", Js.str "amir")])) "name" Js.undef).1
        = readField (scan [("name", Js.str "amir")]) "name" :=
  ⟨rfl, rfl,
   (cache_stale_then_refresh [("name", Js.str "mahdi")] [("name", Js.str "amir")]
      "name" Js.undef rfl).1,
   (cache_stale_then_refresh [("name", Js.str "mahdi")] [("name", Js.str "amir")]
      "name" Js.undef rfl).2 rfl⟩

end Objmod
